import Mathlib

/-!
Verification of the competitor-site crawler (`competitor_analyzer.py`) of the
repository, against its natural-language specification.

The crawler is embedded shallowly:

* Pure helper functions (`extract_keywords`, `extract_colors_from_css`,
  `detect_ctas`, `detect_product_links`, `clean_text`) are translated
  line-by-line into total Lean functions over `String` / `List`.
* The network and the HTML parser (`requests`, `BeautifulSoup`, `urljoin`)
  are external libraries; they are modelled by a fetch oracle
  `f : String → Option Page`, where `none` stands for any fetch failure
  (timeout, connection error, non-2xx status raised by `raise_for_status`)
  and `Page` carries exactly the data the crawl loop reads from a fetched
  response: the raw response text, the cleaned-text source, the `h1`/`h2`
  headings, the texts of `a`/`button` tags and the `href` targets already
  resolved to absolute URLs.
* `urllib.parse.urlparse(...).netloc` is modelled by `netloc` below.
* The crawl loop `analyze_competitor_site` is embedded as a well-founded
  recursion over the frontier, instrumented with two ghost fields
  (`attempts`, `enqueued`) that record, without influencing, every URL
  passed to the fetcher and every entry pushed onto the frontier.
-/

namespace CompetitorAnalyzer

/-- Python whitespace class `\s` restricted to ASCII: the characters matched
by `re.sub(r'\s+', ' ', ...)` in `clean_text`. -/
def isPySpace (c : Char) : Bool :=
  c = ' ' || c = '\t' || c = '\n' || c = '\r' || c = '\x0b' || c = '\x0c'

/-- Models `str.lower()` for ASCII text (character-wise lowercasing). -/
def pyLower (s : String) : String :=
  String.mk (s.toList.map Char.toLower)

/-- Models Python string slicing `s[:n]`: the first `n` characters. -/
def pyTake (n : Nat) (s : String) : String :=
  String.mk (s.toList.take n)

/-- `prefixOf need hay` is true when `need` is a prefix of `hay`. -/
def prefixOf : List Char → List Char → Bool
  | [], _ => true
  | _ :: _, [] => false
  | a :: as, b :: bs => a = b && prefixOf as bs

/-- `hasSubList need hay` is true when `need` occurs as a contiguous
sublist of `hay`. -/
def hasSubList (need : List Char) : List Char → Bool
  | [] => prefixOf need []
  | c :: t => prefixOf need (c :: t) || hasSubList need t

/-- Models the Python substring test `need in hay` on strings. -/
def hasSub (hay need : String) : Bool :=
  hasSubList need.toList hay.toList

/-- Characters allowed in a URL scheme after the initial letter
(`urllib.parse`: letters, digits, `+`, `-`, `.`). -/
def isSchemeChar (c : Char) : Bool :=
  c.isAlphanum || c = '+' || c = '-' || c = '.'

/-- Drops a leading `scheme:` from a URL character list when one is present,
as `urllib.parse.urlparse` does before looking for the authority. -/
def removeScheme (cs : List Char) : List Char :=
  let pre := cs.takeWhile (fun c => c ≠ ':')
  let post := cs.dropWhile (fun c => c ≠ ':')
  match post with
  | ':' :: rest =>
    match pre with
    | p :: ps => if p.isAlpha ∧ ps.all isSchemeChar then rest else cs
    | [] => cs
  | _ => cs

/-- Modelled from `urllib.parse.urlparse(url).netloc` (for URLs without
IPv6 bracket syntax): after an optional `scheme:`, the authority is present
exactly when the remainder starts with `//`, and extends to the next
`/`, `?` or `#`; otherwise the netloc is empty. -/
def netloc (url : String) : String :=
  match removeScheme url.toList with
  | '/' :: '/' :: rest =>
      String.mk (rest.takeWhile (fun c => c ≠ '/' ∧ c ≠ '?' ∧ c ≠ '#'))
  | _ => ""

/-- First-occurrence deduplication: models building `list(set(xs))` in
Python, fixing the (there unspecified) iteration order to the order of
first occurrence. Every property proved below that goes through `dedupF`
depends only on the element set and the output length, not on this order. -/
def dedupFAux (seen : List String) : List String → List String
  | [] => []
  | x :: xs => if x ∈ seen then dedupFAux seen xs else x :: dedupFAux (x :: seen) xs

/-- `dedupF l` keeps the first occurrence of each element of `l`. -/
def dedupF (l : List String) : List String := dedupFAux [] l

/-- Hexadecimal digit, as in the character class `[0-9a-fA-F]`. -/
def isHexDigit (c : Char) : Bool :=
  c.isDigit || ('a' ≤ c && c ≤ 'f') || ('A' ≤ c && c ≤ 'F')

/-- Models `re.findall(r'#(?:[0-9a-fA-F]{3}){1,2}', text)`: a left-to-right,
non-overlapping scan; at each `#` the greedy group first tries six hex
digits, then three, and the scan resumes after the match (or after the `#`
when neither alternative matches). -/
def findHexColorsAux : Nat → List Char → List String
  | 0, _ => []
  | n + 1, cs =>
    match cs with
    | [] => []
    | c :: rest =>
      if c = '#' then
        if (rest.take 6).length = 6 ∧ (rest.take 6).all isHexDigit then
          String.mk ('#' :: rest.take 6) :: findHexColorsAux n (rest.drop 6)
        else if (rest.take 3).length = 3 ∧ (rest.take 3).all isHexDigit then
          String.mk ('#' :: rest.take 3) :: findHexColorsAux n (rest.drop 3)
        else findHexColorsAux n rest
      else findHexColorsAux n rest

/-- The scan of `findHexColorsAux` started with enough budget (one unit per
character; every step consumes at least one character). -/
def findHexColors (cs : List Char) : List String :=
  findHexColorsAux cs.length cs

/-- Embeds `extract_colors_from_css` (source lines 8–10):
`list(set(re.findall(...)))[:15]`. -/
def extract_colors_from_css (text : String) : List String :=
  (dedupF (findHexColors text.toList)).take 15

/-- Word character of the regex `\b` boundary class (ASCII `\w`):
letters, digits, underscore. -/
def isWordChar (c : Char) : Bool :=
  c.isAlphanum || c = '_'

/-- Splits a character list into its maximal runs of word characters
(`acc` holds the current run, reversed). -/
def wordRunsAux : List Char → List Char → List (List Char)
  | [], acc => if acc = [] then [] else [acc.reverse]
  | c :: cs, acc =>
    if isWordChar c then wordRunsAux cs (c :: acc)
    else if acc = [] then wordRunsAux cs []
    else acc.reverse :: wordRunsAux cs []

/-- Models `re.findall(r'\b[a-zA-Z]{4,}\b', s)` over ASCII text: the maximal
word-character runs of `s` that consist entirely of letters and have length
at least 4 (a shorter all-letter prefix of a run is not bounded by `\b` on
its right, so exactly the whole runs qualify). -/
def pyTokens (s : String) : List String :=
  ((wordRunsAux s.toList []).filter
    (fun r => decide (4 ≤ r.length) && r.all Char.isAlpha)).map
    (fun r => String.mk r)

/-- The stop-word set of `extract_keywords` (source lines 15–19). -/
def stopwords : List String :=
  ["about", "their", "with", "from", "this", "that", "have", "your",
   "more", "they", "will", "what", "when", "where", "which", "them",
   "privacy", "terms", "cookie", "contact", "login", "signup"]

/-- One counting step of `collections.Counter`: increment the entry of `w`
in an insertion-ordered association list, appending a fresh entry at the
end when `w` is new. -/
def bump : List (String × Nat) → String → List (String × Nat)
  | [], w => [(w, 1)]
  | (x, n) :: rest, w =>
    if x = w then (x, n + 1) :: rest else (x, n) :: bump rest w

/-- Models `collections.Counter(ws)` as its insertion-ordered item list. -/
def pyCounter (ws : List String) : List (String × Nat) :=
  ws.foldl bump []

/-- Insertion step of a stable descending sort by count: `x` is placed
before the first element whose count is at most `x`'s. -/
def insertByCount (x : String × Nat) : List (String × Nat) → List (String × Nat)
  | [] => [x]
  | y :: ys => if y.2 ≤ x.2 then x :: y :: ys else y :: insertByCount x ys

/-- Stable descending sort by count; together with `pyCounter` this models
`Counter(ws).most_common(n)` (documented as `sorted(items, key=count,
reverse=True)[:n]`, a stable sort, ties keeping insertion order). -/
def sortByCountDesc : List (String × Nat) → List (String × Nat)
  | [] => []
  | x :: xs => insertByCount x (sortByCountDesc xs)

/-- Embeds `extract_keywords` (source lines 13–22). -/
def extract_keywords (text : String) : List String :=
  let words := pyTokens (pyLower text)
  let filtered := words.filter (fun w => !(stopwords.contains w))
  ((sortByCountDesc (pyCounter filtered)).take 20).map Prod.fst

/-- Collapses each maximal whitespace run to a single space
(`re.sub(r'\s+', ' ', text)`); the flag records whether the previous
character was whitespace. -/
def collapseWsAux : List Char → Bool → List Char
  | [], _ => []
  | c :: cs, prevSpace =>
    if isPySpace c then
      if prevSpace then collapseWsAux cs true else ' ' :: collapseWsAux cs true
    else c :: collapseWsAux cs false

/-- Models `str.strip()`: removes leading and trailing whitespace. -/
def pyStrip (s : String) : String :=
  String.mk (((s.toList.dropWhile isPySpace).reverse.dropWhile isPySpace).reverse)

/-- Embeds `clean_text` (source lines 25–27). -/
def clean_text (text : String) : String :=
  pyStrip (String.mk (collapseWsAux text.toList false))

/-- The CTA phrase vocabulary of `detect_ctas` (source lines 34–38). -/
def ctaPhrases : List String :=
  ["get started", "try", "sign up", "book demo", "contact sales",
   "learn more", "start free"]

/-- Embeds `detect_ctas` (source lines 30–40) over the stripped texts of the
page's `a`/`button` tags (the HTML traversal itself is the parser's job and
is abstracted into the `Page` record). -/
def detect_ctas (tagTexts : List String) : List String :=
  (dedupF ((tagTexts.map pyLower).filter
    (fun t => ctaPhrases.any (fun p => hasSub t p)))).take 10

/-- The link vocabulary of `detect_product_links` (source lines 46–49). -/
def productWords : List String :=
  ["product", "solutions", "services", "features", "platform", "pricing"]

/-- Embeds `detect_product_links` (source lines 43–51). -/
def detect_product_links (links : List String) : List String :=
  (dedupF (links.filter
    (fun l => productWords.any (fun w => hasSub (pyLower l) w)))).take 10

/-- The data the external fetch/parse layer (`requests` + `BeautifulSoup` +
`urljoin`) delivers to the crawl loop for one successfully fetched URL:

* `rawHtml` — `resp.text`, scanned for hex colors;
* `rawPageText` — `soup.get_text(separator=" ")` after the `script`, `style`,
  `nav` and `footer` elements have been decomposed;
* `headings` — the texts of the page's `h1`/`h2` elements, in order;
* `tagTexts` — the stripped texts of the page's `a`/`button` elements;
* `links` — the `href` targets of the page's anchors, collected before any
  element is decomposed and already resolved to absolute URLs by `urljoin`.
-/
structure Page where
  rawHtml : String
  rawPageText : String
  headings : List String
  tagTexts : List String
  links : List String
deriving DecidableEq

/-- The mutable state of one `analyze_competitor_site` call: the visited
set (kept as a list — the loop only ever appends a URL after checking it is
absent, so the list stays duplicate-free and its length is `len(visited)`),
the five output accumulators of the source, and two ghost fields that
record, without influencing the crawl, every URL handed to the fetcher
(`attempts`, with its dequeue depth) and every entry pushed onto the
frontier (`enqueued`). -/
structure CrawlAcc where
  visited : List String
  attempts : List (String × Nat)
  enqueued : List (String × Nat)
  all_text : String
  all_headings : List String
  all_colors : List String
  all_ctas : List String
  all_product_links : List String
deriving DecidableEq

/-- The initial accumulator state (source lines 56–64). -/
def initAcc : CrawlAcc :=
  ⟨[], [], [], "", [], [], [], []⟩

/-- The exclusion vocabulary of the enqueue filter (source lines 113–116). -/
def exclusionTerms : List String :=
  ["login", "signup", "privacy", "terms", "blog", "careers"]

/-- `any(skip in link.lower() for skip in [...])` (source lines 113–116). -/
def excludedLink (link : String) : Bool :=
  exclusionTerms.any (fun t => hasSub (pyLower link) t)

/-- The frontier entries pushed after a successful fetch (source lines
108–117): when the current depth is below `max_depth`, every discovered
link whose netloc equals the seed's domain, which is not in the (already
updated) visited set, and which contains no exclusion term, is appended
with depth one greater. -/
def pushLinks (dom : String) (dmax : Nat) (visited' : List String)
    (depth : Nat) (links : List String) : List (String × Nat) :=
  if depth < dmax then
    (links.filter (fun l =>
      decide (netloc l = dom) && !(decide (l ∈ visited')) && !(excludedLink l))).map
      (fun l => (l, depth + 1))
  else []

/-- The accumulator after a failed fetch (source lines 79–80): the bare
`except: continue` leaves every accumulator — including the visited set —
unchanged; only the ghost attempt log grows. -/
def failStep (acc : CrawlAcc) (url : String) (depth : Nat) : CrawlAcc :=
  { acc with attempts := acc.attempts ++ [(url, depth)] }

/-- The accumulator after a successful fetch of `url` at `depth`
(source lines 82–117): the URL is added to the visited set, each extractor's
output is appended to its accumulator (text pre-truncated to 1500
characters, headings to the first 5), and the filtered links are recorded
as enqueued. -/
def succStep (dom : String) (dmax : Nat) (acc : CrawlAcc) (url : String)
    (depth : Nat) (page : Page) : CrawlAcc :=
  { visited := acc.visited ++ [url]
    attempts := acc.attempts ++ [(url, depth)]
    enqueued := acc.enqueued ++ pushLinks dom dmax (acc.visited ++ [url]) depth page.links
    all_text := acc.all_text ++ " " ++ pyTake 1500 (clean_text page.rawPageText)
    all_headings := acc.all_headings ++ page.headings.take 5
    all_colors := acc.all_colors ++ extract_colors_from_css page.rawHtml
    all_ctas := acc.all_ctas ++ detect_ctas page.tagTexts
    all_product_links := acc.all_product_links ++ detect_product_links page.links }

/-- The `while to_visit and len(visited) < max_pages` loop of
`analyze_competitor_site` (source lines 66–117). Each iteration pops the
frontier head; entries that are too deep or already visited are skipped
(line 69); otherwise the URL is fetched, a failure skips it via
`failStep`, and a success folds the page in via `succStep` and appends the
filtered links to the frontier. -/
def crawlLoop (f : String → Option Page) (dom : String) (dmax pmax : Nat) :
    List (String × Nat) → CrawlAcc → CrawlAcc
  | [], acc => acc
  | (url, depth) :: rest, acc =>
    if _h : acc.visited.length < pmax then
      if depth > dmax ∨ url ∈ acc.visited then
        crawlLoop f dom dmax pmax rest acc
      else
        match f url with
        | none => crawlLoop f dom dmax pmax rest (failStep acc url depth)
        | some page =>
            crawlLoop f dom dmax pmax
              (rest ++ pushLinks dom dmax (acc.visited ++ [url]) depth page.links)
              (succStep dom dmax acc url depth page)
    else acc
termination_by tv acc => (pmax - acc.visited.length, tv.length)
decreasing_by
  · apply Prod.Lex.right; simp [List.length_cons]
  · apply Prod.Lex.right; simp [List.length_cons]
  · apply Prod.Lex.left; simp [succStep]; omega

/-- The final accumulator state of `analyze_competitor_site f url dmax pmax`:
the loop run on the frontier seeded with `(url, 0)` against the seed's
domain (source lines 56–58, 66–117). -/
def analyzeAcc (f : String → Option Page) (start_url : String)
    (dmax pmax : Nat) : CrawlAcc :=
  crawlLoop f (netloc start_url) dmax pmax [(start_url, 0)] initAcc

/-- The report returned by `analyze_competitor_site` (source lines 121–129);
the record's fields are exactly the keys of the returned dict. -/
structure CrawlReport where
  pages_scraped : Nat
  top_keywords : List String
  headings : List String
  detected_colors : List String
  ctas : List String
  product_links : List String
  text_sample : String
deriving DecidableEq

/-- Embeds `analyze_competitor_site` (source lines 54–129), parameterised by
the fetch oracle `f`. -/
def analyze_competitor_site (f : String → Option Page) (start_url : String)
    (max_depth max_pages : Nat) : CrawlReport :=
  let acc := analyzeAcc f start_url max_depth max_pages
  { pages_scraped := acc.visited.length
    top_keywords := extract_keywords acc.all_text
    headings := acc.all_headings.take 15
    detected_colors := (dedupF acc.all_colors).take 8
    ctas := (dedupF acc.all_ctas).take 10
    product_links := (dedupF acc.all_product_links).take 10
    text_sample := pyTake 3000 acc.all_text }

/-! ### Basic lemmas about the crawl loop -/

/-- Unfolding the loop on an empty frontier. -/
theorem crawlLoop_nil (f : String → Option Page) (dom : String) (dmax pmax : Nat)
    (acc : CrawlAcc) : crawlLoop f dom dmax pmax [] acc = acc := by
  rw [crawlLoop]

/-- Unfolding one loop iteration on a non-empty frontier. -/
theorem crawlLoop_cons (f : String → Option Page) (dom : String) (dmax pmax : Nat)
    (url : String) (depth : Nat) (rest : List (String × Nat)) (acc : CrawlAcc) :
    crawlLoop f dom dmax pmax ((url, depth) :: rest) acc =
      if acc.visited.length < pmax then
        if depth > dmax ∨ url ∈ acc.visited then
          crawlLoop f dom dmax pmax rest acc
        else
          match f url with
          | none => crawlLoop f dom dmax pmax rest (failStep acc url depth)
          | some page =>
              crawlLoop f dom dmax pmax
                (rest ++ pushLinks dom dmax (acc.visited ++ [url]) depth page.links)
                (succStep dom dmax acc url depth page)
      else acc := by
  rw [crawlLoop]
  rfl

/-- Every property of the accumulator preserved by a skipped fetch and by a
successful fetch is an invariant of the whole loop. -/
theorem crawlLoop_preserves (f : String → Option Page) (dom : String)
    (dmax pmax : Nat) (P : CrawlAcc → Prop)
    (hfail : ∀ acc url depth, P acc → acc.visited.length < pmax →
      ¬(depth > dmax ∨ url ∈ acc.visited) → f url = none →
      P (failStep acc url depth))
    (hsucc : ∀ acc url depth page, P acc → acc.visited.length < pmax →
      ¬(depth > dmax ∨ url ∈ acc.visited) → f url = some page →
      P (succStep dom dmax acc url depth page)) :
    ∀ tv acc, P acc → P (crawlLoop f dom dmax pmax tv acc) := by
  intro tv acc
  induction tv, acc using crawlLoop.induct f dom dmax pmax with
  | case1 acc => intro h; rw [crawlLoop_nil]; exact h
  | case2 url depth rest acc h1 h2 ih =>
    intro h
    rw [crawlLoop_cons, if_pos h1, if_pos h2]
    exact ih h
  | case3 url depth rest acc h1 h2 hf ih =>
    intro h
    rw [crawlLoop_cons, if_pos h1, if_neg h2]
    simp only [hf]
    exact ih (hfail acc url depth h h1 h2 hf)
  | case4 url depth rest acc h1 h2 page hf ih =>
    intro h
    rw [crawlLoop_cons, if_pos h1, if_neg h2]
    simp only [hf]
    exact ih (hsucc acc url depth page h h1 h2 hf)
  | case5 url depth rest acc h1 =>
    intro h
    rw [crawlLoop_cons, if_neg h1]
    exact h

/-- Membership in the pushed-link list decodes into the three enqueue
conditions of source lines 108–117 plus the depth bookkeeping. -/
theorem mem_pushLinks {dom : String} {dmax : Nat} {visited' : List String}
    {depth : Nat} {links : List String} {e : String × Nat}
    (he : e ∈ pushLinks dom dmax visited' depth links) :
    netloc e.1 = dom ∧ e.1 ∉ visited' ∧ excludedLink e.1 = false ∧
      e.2 = depth + 1 ∧ depth < dmax := by
  unfold pushLinks at he
  split at he
  · obtain ⟨l, hl, rfl⟩ := List.mem_map.1 he
    obtain ⟨hmem, hp⟩ := List.mem_filter.1 hl
    simp only [Bool.and_eq_true, Bool.not_eq_true', decide_eq_true_eq,
      decide_eq_false_iff_not] at hp
    exact ⟨hp.1.1, hp.1.2, hp.2, rfl, by assumption⟩
  · simp at he

/-! ### Invariants of the crawl -/

/-- The visited set is exactly the list of successfully fetched attempts,
in fetch order: a URL whose fetch fails is never added to it. -/
theorem analyzeAcc_visited_eq_successes (f : String → Option Page) (u : String)
    (dmax pmax : Nat) :
    (analyzeAcc f u dmax pmax).visited =
      ((analyzeAcc f u dmax pmax).attempts.filter
        (fun a => (f a.1).isSome)).map Prod.fst := by
  unfold analyzeAcc
  apply crawlLoop_preserves f (netloc u) dmax pmax
    (fun acc => acc.visited =
      (acc.attempts.filter (fun a => (f a.1).isSome)).map Prod.fst)
  · intro acc url depth hP _ _ hf
    simp [failStep, List.filter_append, List.filter_cons, hf, hP]
  · intro acc url depth page hP _ _ hf
    simp [succStep, List.filter_append, List.filter_cons, hf, hP]
  · simp [initAcc]

/-- The visited set never holds a URL twice. -/
theorem analyzeAcc_visited_nodup (f : String → Option Page) (u : String)
    (dmax pmax : Nat) : (analyzeAcc f u dmax pmax).visited.Nodup := by
  unfold analyzeAcc
  apply crawlLoop_preserves f (netloc u) dmax pmax (fun acc => acc.visited.Nodup)
  · intro acc url depth hP _ _ _
    simpa [failStep] using hP
  · intro acc url depth page hP _ hnd _
    have hu : url ∉ acc.visited := fun hmem => hnd (Or.inr hmem)
    simp [succStep, List.nodup_append, hP, hu]
  · simp [initAcc]

/-- The visited set never exceeds the page budget. -/
theorem analyzeAcc_pages_le (f : String → Option Page) (u : String)
    (dmax pmax : Nat) : (analyzeAcc f u dmax pmax).visited.length ≤ pmax := by
  unfold analyzeAcc
  apply crawlLoop_preserves f (netloc u) dmax pmax
    (fun acc => acc.visited.length ≤ pmax)
  · intro acc url depth hP _ _ _
    simpa [failStep] using hP
  · intro acc url depth page hP hlen _ _
    simp only [succStep, List.length_append, List.length_cons, List.length_nil]
    omega
  · simp [initAcc]

/-- Every fetch attempt happens at a dequeue depth of at most `max_depth`
(the `depth > max_depth` re-check at source line 69). -/
theorem analyzeAcc_attempts_depth (f : String → Option Page) (u : String)
    (dmax pmax : Nat) :
    ∀ a ∈ (analyzeAcc f u dmax pmax).attempts, a.2 ≤ dmax := by
  unfold analyzeAcc
  apply crawlLoop_preserves f (netloc u) dmax pmax
    (fun acc => ∀ a ∈ acc.attempts, a.2 ≤ dmax)
  · intro acc url depth hP _ hnd _ a ha
    have hd : depth ≤ dmax := Nat.le_of_not_lt (fun h => hnd (Or.inl h))
    simp only [failStep, List.mem_append, List.mem_singleton] at ha
    rcases ha with ha | rfl
    · exact hP a ha
    · exact hd
  · intro acc url depth page hP _ hnd _ a ha
    have hd : depth ≤ dmax := Nat.le_of_not_lt (fun h => hnd (Or.inl h))
    simp only [succStep, List.mem_append, List.mem_singleton] at ha
    rcases ha with ha | rfl
    · exact hP a ha
    · exact hd
  · simp [initAcc]

/-- Every frontier entry the loop ever pushes is same-host (exact netloc
match with the seed's domain), free of exclusion terms, and within the
depth budget. -/
theorem analyzeAcc_enqueued_ok (f : String → Option Page) (u : String)
    (dmax pmax : Nat) :
    ∀ e ∈ (analyzeAcc f u dmax pmax).enqueued,
      netloc e.1 = netloc u ∧ excludedLink e.1 = false ∧ e.2 ≤ dmax := by
  unfold analyzeAcc
  apply crawlLoop_preserves f (netloc u) dmax pmax
    (fun acc => ∀ e ∈ acc.enqueued,
      netloc e.1 = netloc u ∧ excludedLink e.1 = false ∧ e.2 ≤ dmax)
  · intro acc url depth hP _ _ _ e he
    simp only [failStep] at he
    exact hP e he
  · intro acc url depth page hP _ _ _ e he
    simp only [succStep, List.mem_append] at he
    rcases he with he | he
    · exact hP e he
    · obtain ⟨h1, _, h3, h4, h5⟩ := mem_pushLinks he
      exact ⟨h1, h3, by omega⟩
  · simp [initAcc]

/-- The loop only ever appends to the attempt log. -/
theorem crawlLoop_attempts_prefix (f : String → Option Page) (dom : String)
    (dmax pmax : Nat) (tv : List (String × Nat)) (acc : CrawlAcc) :
    ∃ ext, (crawlLoop f dom dmax pmax tv acc).attempts = acc.attempts ++ ext := by
  apply crawlLoop_preserves f dom dmax pmax
    (fun a => ∃ ext, a.attempts = acc.attempts ++ ext)
  · intro a url depth hP _ _ _
    obtain ⟨e, he⟩ := hP
    exact ⟨e ++ [(url, depth)], by simp [failStep, he]⟩
  · intro a url depth page hP _ _ _
    obtain ⟨e, he⟩ := hP
    exact ⟨e ++ [(url, depth)], by simp [succStep, he]⟩
  · exact ⟨[], by simp⟩

/-- When every fetch fails, every accumulator except the ghost attempt log
stays at its initial value. -/
theorem analyzeAcc_allfail (u : String) (dmax pmax : Nat) :
    (analyzeAcc (fun _ => none) u dmax pmax).visited = [] ∧
    (analyzeAcc (fun _ => none) u dmax pmax).all_text = "" ∧
    (analyzeAcc (fun _ => none) u dmax pmax).all_headings = [] ∧
    (analyzeAcc (fun _ => none) u dmax pmax).all_colors = [] ∧
    (analyzeAcc (fun _ => none) u dmax pmax).all_ctas = [] ∧
    (analyzeAcc (fun _ => none) u dmax pmax).all_product_links = [] := by
  unfold analyzeAcc
  apply crawlLoop_preserves (fun _ => none) (netloc u) dmax pmax
    (fun a => a.visited = [] ∧ a.all_text = "" ∧ a.all_headings = [] ∧
      a.all_colors = [] ∧ a.all_ctas = [] ∧ a.all_product_links = [])
  · intro acc url depth hP _ _ _
    simpa [failStep] using hP
  · intro acc url depth page _ _ _ hf
    simp at hf
  · simp [initAcc]

/-- As soon as the page budget is positive, the very first fetch attempt of
a crawl is the seed URL at depth 0 — no host or exclusion filter guards it. -/
theorem analyzeAcc_first_attempt (f : String → Option Page) (u : String)
    (dmax pmax : Nat) (hp : 1 ≤ pmax) :
    (analyzeAcc f u dmax pmax).attempts.head? = some (u, 0) := by
  unfold analyzeAcc
  rw [crawlLoop_cons]
  have h1 : initAcc.visited.length < pmax := by
    simp only [initAcc, List.length_nil]
    omega
  rw [if_pos h1]
  have h2 : ¬((0 : Nat) > dmax ∨ u ∈ initAcc.visited) := by
    simp [initAcc]
  rw [if_neg h2]
  cases hf : f u with
  | none =>
    simp only [crawlLoop_nil]
    simp [failStep, initAcc]
  | some page =>
    obtain ⟨e, he⟩ := crawlLoop_attempts_prefix f (netloc u) dmax pmax
      (([] : List (String × Nat)) ++ pushLinks (netloc u) dmax (initAcc.visited ++ [u]) 0 page.links)
      (succStep (netloc u) dmax initAcc u 0 page)
    rw [he]
    simp [succStep, initAcc]

/-! ### Keyword extraction: counting, ranking, stability -/

/-- Number of occurrences of `w` in `l`. -/
def occCount (w : String) (l : List String) : Nat :=
  (l.filter (fun x => decide (x = w))).length

/-- Index of the first occurrence of `w` in `l` (length of `l` when absent). -/
def firstIdx (w : String) : List String → Nat
  | [] => 0
  | x :: xs => if x = w then 0 else firstIdx w xs + 1

/-- The filtered token sequence over which `extract_keywords` counts:
the length-≥4 alphabetic words of the lowercased text, stop words removed. -/
def filteredTokens (text : String) : List String :=
  (pyTokens (pyLower text)).filter (fun w => !(stopwords.contains w))

theorem strMk_toList (r : List Char) : (String.mk r).toList = r := rfl

theorem strMk_length (r : List Char) : (String.mk r).length = r.length := rfl

theorem extract_keywords_eq (text : String) :
    extract_keywords text =
      ((sortByCountDesc (pyCounter (filteredTokens text))).take 20).map Prod.fst := rfl

theorem firstIdx_cons (w x : String) (xs : List String) :
    firstIdx w (x :: xs) = if x = w then 0 else firstIdx w xs + 1 := rfl

theorem occCount_cons (w x : String) (xs : List String) :
    occCount w (x :: xs) =
      (if x = w then 1 else 0) + occCount w xs := by
  by_cases h : x = w
  · simp [occCount, List.filter_cons, h, Nat.add_comm]
  · simp [occCount, List.filter_cons, h]

/-- Members of a token produced by `pyTokens` are ≥4 letters long and
purely alphabetic. -/
theorem mem_pyTokens {s w : String} (hw : w ∈ pyTokens s) :
    4 ≤ w.length ∧ w.toList.all Char.isAlpha = true := by
  unfold pyTokens at hw
  obtain ⟨r, hr, rfl⟩ := List.mem_map.1 hw
  obtain ⟨_, hp⟩ := List.mem_filter.1 hr
  simp only [Bool.and_eq_true, decide_eq_true_eq] at hp
  exact ⟨by simpa [strMk_length] using hp.1, by simpa [strMk_toList] using hp.2⟩

/-- Seen-lists with the same members deduplicate identically. -/
theorem dedupFAux_congr :
    ∀ (ws : List String) (s₁ s₂ : List String),
      (∀ x, x ∈ s₁ ↔ x ∈ s₂) → dedupFAux s₁ ws = dedupFAux s₂ ws
  | [], _, _, _ => rfl
  | w :: ws, s₁, s₂, h => by
    simp only [dedupFAux]
    by_cases hw : w ∈ s₁
    · rw [if_pos hw, if_pos ((h w).1 hw)]
      exact dedupFAux_congr ws s₁ s₂ h
    · rw [if_neg hw, if_neg (fun hc => hw ((h w).2 hc))]
      refine congrArg (w :: ·) (dedupFAux_congr ws (w :: s₁) (w :: s₂) ?_)
      intro x
      simp only [List.mem_cons]
      exact or_congr Iff.rfl (h x)

/-- Elements surviving deduplication come from the list and avoid the seen
set. -/
theorem mem_dedupFAux :
    ∀ (ws seen : List String) (x : String),
      x ∈ dedupFAux seen ws → x ∈ ws ∧ x ∉ seen
  | [], _, _, hx => by simp [dedupFAux] at hx
  | w :: ws, seen, x, hx => by
    simp only [dedupFAux] at hx
    by_cases hw : w ∈ seen
    · rw [if_pos hw] at hx
      obtain ⟨h1, h2⟩ := mem_dedupFAux ws seen x hx
      exact ⟨List.mem_cons_of_mem w h1, h2⟩
    · rw [if_neg hw] at hx
      rcases List.mem_cons.1 hx with rfl | hx
      · exact ⟨List.mem_cons_self x ws, hw⟩
      · obtain ⟨h1, h2⟩ := mem_dedupFAux ws (w :: seen) x hx
        exact ⟨List.mem_cons_of_mem w h1,
          fun hc => h2 (List.mem_cons_of_mem w hc)⟩

/-- Deduplication yields a duplicate-free list. -/
theorem nodup_dedupFAux :
    ∀ (ws seen : List String), (dedupFAux seen ws).Nodup
  | [], _ => List.nodup_nil
  | w :: ws, seen => by
    simp only [dedupFAux]
    by_cases hw : w ∈ seen
    · rw [if_pos hw]
      exact nodup_dedupFAux ws seen
    · rw [if_neg hw]
      refine List.Nodup.cons ?_ (nodup_dedupFAux ws (w :: seen))
      intro hc
      exact (mem_dedupFAux ws (w :: seen) w hc).2 (List.mem_cons_self w seen)

/-- Deduplication lists elements in order of their first occurrence. -/
theorem pairwise_firstIdx_dedupFAux :
    ∀ (ws seen : List String),
      (dedupFAux seen ws).Pairwise (fun a b => firstIdx a ws < firstIdx b ws)
  | [], _ => List.Pairwise.nil
  | w :: ws, seen => by
    simp only [dedupFAux]
    by_cases hw : w ∈ seen
    · rw [if_pos hw]
      refine (pairwise_firstIdx_dedupFAux ws seen).imp_of_mem ?_
      intro a b ha hb hab
      have hna : a ≠ w := fun h => (mem_dedupFAux ws seen a ha).2 (h ▸ hw)
      have hnb : b ≠ w := fun h => (mem_dedupFAux ws seen b hb).2 (h ▸ hw)
      rw [firstIdx_cons, firstIdx_cons, if_neg (fun h => hna h.symm),
        if_neg (fun h => hnb h.symm)]
      omega
    · rw [if_neg hw]
      refine List.Pairwise.cons ?_ ?_
      · intro b hb
        have hnb : b ≠ w :=
          fun h => (mem_dedupFAux ws (w :: seen) b hb).2 (h ▸ List.mem_cons_self w seen)
        rw [firstIdx_cons, firstIdx_cons, if_pos rfl,
          if_neg (fun h => hnb h.symm)]
        omega
      · refine (pairwise_firstIdx_dedupFAux ws (w :: seen)).imp_of_mem ?_
        intro a b ha hb hab
        have hna : a ≠ w :=
          fun h => (mem_dedupFAux ws (w :: seen) a ha).2 (h ▸ List.mem_cons_self w seen)
        have hnb : b ≠ w :=
          fun h => (mem_dedupFAux ws (w :: seen) b hb).2 (h ▸ List.mem_cons_self w seen)
        rw [firstIdx_cons, firstIdx_cons, if_neg (fun h => hna h.symm),
          if_neg (fun h => hnb h.symm)]
        omega

/-- Count associated with `w` in an association list (0 when absent). -/
def cnt (l : List (String × Nat)) (w : String) : Nat :=
  ((l.find? (fun p => decide (p.1 = w))).map Prod.snd).getD 0

/-- `bump` adds a fresh key at the end and keeps existing keys in place. -/
theorem bump_keys :
    ∀ (acc : List (String × Nat)) (w : String),
      (bump acc w).map Prod.fst =
        if w ∈ acc.map Prod.fst then acc.map Prod.fst
        else acc.map Prod.fst ++ [w]
  | [], w => by simp [bump]
  | (x, n) :: rest, w => by
    by_cases hx : x = w
    · simp [bump, hx]
    · simp only [bump, if_neg hx, List.map_cons, bump_keys rest w,
        List.mem_cons]
      have : ¬ w = x := fun h => hx h.symm
      by_cases hm : w ∈ rest.map Prod.fst
      · simp [hm, this]
      · simp [hm, this]

/-- `bump acc v` increments exactly the count of `v`. -/
theorem cnt_bump :
    ∀ (acc : List (String × Nat)) (v w : String),
      cnt (bump acc v) w = if v = w then cnt acc w + 1 else cnt acc w
  | [], v, w => by
    by_cases h : v = w <;> simp [bump, cnt, List.find?, h]
  | (x, n) :: rest, v, w => by
    simp only [bump]
    by_cases hxv : x = v
    · rw [if_pos hxv]
      by_cases hxw : x = w
      · have hvw : v = w := hxv.symm.trans hxw
        simp [cnt, List.find?, hxw, hvw]
      · have hvw : ¬ v = w := fun h => hxw (hxv.trans h)
        simp [cnt, List.find?, hxw, hvw]
    · rw [if_neg hxv]
      by_cases hxw : x = w
      · have hvw : ¬ v = w := fun h => hxv (hxw.trans h.symm)
        simp [cnt, List.find?, hxw, hvw]
      · simpa [cnt, List.find?, hxw] using cnt_bump rest v w

/-- Folding `bump` over `ws` adds each word's occurrence count. -/
theorem cnt_foldl :
    ∀ (ws : List String) (acc : List (String × Nat)) (w : String),
      cnt (ws.foldl bump acc) w = cnt acc w + occCount w ws
  | [], acc, w => by simp [occCount]
  | v :: ws, acc, w => by
    rw [List.foldl_cons, cnt_foldl ws (bump acc v) w, cnt_bump, occCount_cons]
    by_cases h : v = w
    · simp only [if_pos h]
      omega
    · simp only [if_neg h]
      omega

/-- The keys of the fold are the seen keys plus the fresh first occurrences. -/
theorem keys_foldl :
    ∀ (ws : List String) (acc : List (String × Nat)),
      (ws.foldl bump acc).map Prod.fst =
        acc.map Prod.fst ++ dedupFAux (acc.map Prod.fst) ws
  | [], acc => by simp [dedupFAux]
  | w :: ws, acc => by
    rw [List.foldl_cons, keys_foldl ws (bump acc w), bump_keys]
    by_cases hm : w ∈ acc.map Prod.fst
    · rw [if_pos hm]
      simp only [dedupFAux, if_pos hm]
    · rw [if_neg hm]
      simp only [dedupFAux, if_neg hm]
      rw [dedupFAux_congr ws (acc.map Prod.fst ++ [w]) (w :: acc.map Prod.fst)
        (by intro x; simp [List.mem_append, List.mem_cons, or_comm])]
      simp

/-- With duplicate-free keys, each stored count is the looked-up count. -/
theorem items_cnt :
    ∀ (l : List (String × Nat)), (l.map Prod.fst).Nodup →
      ∀ p ∈ l, cnt l p.1 = p.2
  | [], _, p, hp => by simp at hp
  | (x, n) :: rest, hnd, p, hp => by
    simp only [List.map_cons, List.nodup_cons] at hnd
    rcases List.mem_cons.1 hp with rfl | hp
    · simp [cnt, List.find?]
    · have hne : ¬ x = p.1 := by
        intro h
        exact hnd.1 (h ▸ List.mem_map_of_mem Prod.fst hp)
      simpa [cnt, List.find?, hne] using items_cnt rest hnd.2 p hp

theorem pyCounter_keys (ws : List String) :
    (pyCounter ws).map Prod.fst = dedupF ws := by
  simpa [pyCounter, dedupF] using keys_foldl ws []

theorem pyCounter_keys_nodup (ws : List String) :
    ((pyCounter ws).map Prod.fst).Nodup := by
  rw [pyCounter_keys]
  exact nodup_dedupFAux ws []

theorem pyCounter_cnt (ws : List String) (w : String) :
    cnt (pyCounter ws) w = occCount w ws := by
  simpa [pyCounter, cnt] using cnt_foldl ws [] w

/-- Each Counter item stores its key's occurrence count. -/
theorem pyCounter_snd (ws : List String) :
    ∀ p ∈ pyCounter ws, p.2 = occCount p.1 ws := by
  intro p hp
  rw [← pyCounter_cnt ws p.1]
  exact (items_cnt (pyCounter ws) (pyCounter_keys_nodup ws) p hp).symm

/-- Counter items are listed in order of first occurrence. -/
theorem pyCounter_pairwise_firstIdx (ws : List String) :
    (pyCounter ws).Pairwise
      (fun p q => firstIdx p.1 ws < firstIdx q.1 ws) := by
  have h := pairwise_firstIdx_dedupFAux ws []
  rw [← dedupF, ← pyCounter_keys, List.pairwise_map] at h
  exact h

/-- Inserting an element permutes it to the front. -/
theorem insertByCount_perm (x : String × Nat) :
    ∀ l : List (String × Nat), (insertByCount x l).Perm (x :: l)
  | [] => List.Perm.refl _
  | y :: ys => by
    simp only [insertByCount]
    by_cases h : y.2 ≤ x.2
    · rw [if_pos h]
    · rw [if_neg h]
      exact ((insertByCount_perm x ys).cons y).trans (List.Perm.swap x y ys)

/-- The stable descending sort is a permutation. -/
theorem sortByCountDesc_perm :
    ∀ l : List (String × Nat), (sortByCountDesc l).Perm l
  | [] => List.Perm.refl _
  | x :: xs =>
    (insertByCount_perm x (sortByCountDesc xs)).trans
      ((sortByCountDesc_perm xs).cons x)

/-- Inserting into a count-sorted list keeps it count-sorted, and an
element inserted before its equals (it goes in front of every equal count)
stays `S`-related to them when it was `S`-related to everything. -/
theorem insertByCount_pairwise {S : String × Nat → String × Nat → Prop}
    (x : String × Nat) :
    ∀ l : List (String × Nat),
      l.Pairwise (fun a b => b.2 < a.2 ∨ (a.2 = b.2 ∧ S a b)) →
      (∀ y ∈ l, S x y) →
      (insertByCount x l).Pairwise
        (fun a b => b.2 < a.2 ∨ (a.2 = b.2 ∧ S a b))
  | [], _, _ => by simp [insertByCount]
  | y :: ys, hl, hS => by
    obtain ⟨hy, hys⟩ := List.pairwise_cons.1 hl
    simp only [insertByCount]
    by_cases h : y.2 ≤ x.2
    · rw [if_pos h]
      refine List.Pairwise.cons ?_ hl
      intro z hz
      rcases List.mem_cons.1 hz with rfl | hz
      · rcases Nat.eq_or_lt_of_le h with he | hlt
        · exact Or.inr ⟨he.symm, hS z (List.mem_cons_self z ys)⟩
        · exact Or.inl hlt
      · have hzy : z.2 ≤ y.2 := by
          rcases hy z hz with h1 | h1
          · omega
          · omega
        rcases Nat.eq_or_lt_of_le (le_trans hzy h) with he | hlt
        · exact Or.inr ⟨he.symm, hS z (List.mem_cons_of_mem y hz)⟩
        · exact Or.inl hlt
    · rw [if_neg h]
      refine List.Pairwise.cons ?_
        (insertByCount_pairwise x ys hys
          (fun z hz => hS z (List.mem_cons_of_mem y hz)))
      intro z hz
      have hz' : z ∈ x :: ys := (insertByCount_perm x ys).mem_iff.1 hz
      rcases List.mem_cons.1 hz' with rfl | hz'
      · exact Or.inl (Nat.lt_of_not_le h)
      · exact hy z hz'

/-- Stability of the descending sort: when the input is `S`-ordered
(e.g. listed in first-occurrence order), the output is ordered by strictly
descending count with `S` breaking ties. -/
theorem sortByCountDesc_pairwise {S : String × Nat → String × Nat → Prop} :
    ∀ l : List (String × Nat), l.Pairwise S →
      (sortByCountDesc l).Pairwise
        (fun a b => b.2 < a.2 ∨ (a.2 = b.2 ∧ S a b))
  | [], _ => List.Pairwise.nil
  | x :: xs, hl => by
    obtain ⟨hx, hxs⟩ := List.pairwise_cons.1 hl
    exact insertByCount_pairwise x (sortByCountDesc xs)
      (sortByCountDesc_pairwise xs hxs)
      (fun y hy => hx y ((sortByCountDesc_perm xs).mem_iff.1 hy))

/-- An unseen element of the list survives deduplication. -/
theorem mem_dedupFAux_of_mem :
    ∀ (ws seen : List String) (x : String),
      x ∈ ws → x ∉ seen → x ∈ dedupFAux seen ws
  | [], _, _, hx, _ => by simp at hx
  | w :: ws, seen, x, hx, hs => by
    simp only [dedupFAux]
    by_cases hw : w ∈ seen
    · rw [if_pos hw]
      rcases List.mem_cons.1 hx with rfl | hx'
      · exact absurd hw hs
      · exact mem_dedupFAux_of_mem ws seen x hx' hs
    · rw [if_neg hw]
      rcases List.mem_cons.1 hx with rfl | hx'
      · exact List.mem_cons_self x _
      · by_cases hxw : x = w
        · exact hxw ▸ List.mem_cons_self w _
        · exact List.mem_cons_of_mem w
            (mem_dedupFAux_of_mem ws (w :: seen) x hx'
              (fun hc => (List.mem_cons.1 hc).elim hxw hs))

/-- `contains` on a string list is propositional membership. -/
theorem containsStr_iff (l : List String) (w : String) :
    l.contains w = true ↔ w ∈ l := by
  induction l with
  | nil => simp
  | cons x xs ih =>
    simp [List.contains_cons, ih, Bool.or_eq_true, beq_iff_eq, List.mem_cons]

/-! ### Characterization of `extract_keywords` -/

theorem extract_keywords_length_le (text : String) :
    (extract_keywords text).length ≤ 20 := by
  rw [extract_keywords_eq]
  simp only [List.length_map, List.length_take]
  exact min_le_left _ _

theorem extract_keywords_nodup (text : String) :
    (extract_keywords text).Nodup := by
  rw [extract_keywords_eq]
  have hperm :
      ((sortByCountDesc (pyCounter (filteredTokens text))).map Prod.fst).Perm
        ((pyCounter (filteredTokens text)).map Prod.fst) :=
    (sortByCountDesc_perm _).map _
  have hnd :
      ((sortByCountDesc (pyCounter (filteredTokens text))).map Prod.fst).Nodup :=
    hperm.nodup_iff.2 (pyCounter_keys_nodup _)
  rw [List.map_take]
  exact List.Nodup.sublist (List.take_sublist 20 _) hnd

theorem extract_keywords_mem {text w : String}
    (hw : w ∈ extract_keywords text) : w ∈ filteredTokens text := by
  rw [extract_keywords_eq] at hw
  obtain ⟨p, hp, rfl⟩ := List.mem_map.1 hw
  have hp2 : p ∈ pyCounter (filteredTokens text) :=
    (sortByCountDesc_perm _).mem_iff.1 (List.mem_of_mem_take hp)
  have hmem : p.1 ∈ (pyCounter (filteredTokens text)).map Prod.fst :=
    List.mem_map_of_mem _ hp2
  rw [pyCounter_keys] at hmem
  simp only [dedupF] at hmem
  exact (mem_dedupFAux _ _ _ hmem).1

theorem mem_filteredTokens {text w : String} (hw : w ∈ filteredTokens text) :
    w ∈ pyTokens (pyLower text) ∧ 4 ≤ w.length ∧
      w.toList.all Char.isAlpha = true ∧ w ∉ stopwords := by
  obtain ⟨hmem, hpred⟩ := List.mem_filter.1 hw
  have hns : w ∉ stopwords := by
    intro hc
    rw [← containsStr_iff] at hc
    rw [hc] at hpred
    simp at hpred
  obtain ⟨hlen, halpha⟩ := mem_pyTokens hmem
  exact ⟨hmem, hlen, halpha, hns⟩

theorem extract_keywords_pairwise (text : String) :
    (extract_keywords text).Pairwise (fun a b =>
      occCount b (filteredTokens text) < occCount a (filteredTokens text) ∨
      (occCount a (filteredTokens text) = occCount b (filteredTokens text) ∧
        firstIdx a (filteredTokens text) < firstIdx b (filteredTokens text))) := by
  rw [extract_keywords_eq, List.pairwise_map]
  have hsorted :=
    sortByCountDesc_pairwise (pyCounter (filteredTokens text))
      (pyCounter_pairwise_firstIdx _)
  have htake := List.Pairwise.sublist (List.take_sublist 20 _) hsorted
  refine htake.imp_of_mem ?_
  intro p q hp hq hpq
  have hp' : p ∈ pyCounter (filteredTokens text) :=
    (sortByCountDesc_perm _).mem_iff.1 (List.mem_of_mem_take hp)
  have hq' : q ∈ pyCounter (filteredTokens text) :=
    (sortByCountDesc_perm _).mem_iff.1 (List.mem_of_mem_take hq)
  have hp2 := pyCounter_snd _ p hp'
  have hq2 := pyCounter_snd _ q hq'
  rcases hpq with h | ⟨h1, h2⟩
  · exact Or.inl (by rw [← hp2, ← hq2]; exact h)
  · exact Or.inr ⟨by rw [← hp2, ← hq2]; exact h1, h2⟩

theorem extract_keywords_complete {text w : String}
    (hw : w ∈ filteredTokens text) (hnot : w ∉ extract_keywords text) :
    (extract_keywords text).length = 20 := by
  have hwk : w ∈ (sortByCountDesc (pyCounter (filteredTokens text))).map Prod.fst := by
    have h1 : w ∈ dedupF (filteredTokens text) := by
      simp only [dedupF]
      exact mem_dedupFAux_of_mem _ [] w hw (by simp)
    rw [← pyCounter_keys] at h1
    exact ((sortByCountDesc_perm _).map Prod.fst).mem_iff.2 h1
  by_cases hle : (sortByCountDesc (pyCounter (filteredTokens text))).length ≤ 20
  · exfalso
    apply hnot
    rw [extract_keywords_eq, List.take_of_length_le hle]
    exact hwk
  · rw [extract_keywords_eq]
    simp only [List.length_map, List.length_take]
    omega

/-! ### A fuel-bounded twin of the loop, for kernel-computable runs

`crawlLoop` is defined by well-founded recursion, which the kernel does not
unfold; concrete crawls are therefore evaluated through this structurally
recursive twin, which agrees with `crawlLoop` whenever it returns `some`. -/

def crawlLoopFuel (f : String → Option Page) (dom : String) (dmax pmax : Nat) :
    Nat → List (String × Nat) → CrawlAcc → Option CrawlAcc
  | 0, _, _ => none
  | fuel + 1, tv, acc =>
    match tv with
    | [] => some acc
    | (url, depth) :: rest =>
      if acc.visited.length < pmax then
        if depth > dmax ∨ url ∈ acc.visited then
          crawlLoopFuel f dom dmax pmax fuel rest acc
        else
          match f url with
          | none => crawlLoopFuel f dom dmax pmax fuel rest (failStep acc url depth)
          | some page =>
              crawlLoopFuel f dom dmax pmax fuel
                (rest ++ pushLinks dom dmax (acc.visited ++ [url]) depth page.links)
                (succStep dom dmax acc url depth page)
      else some acc

/-- A fuelled run that completes computes exactly the loop's result. -/
theorem crawlLoopFuel_sound (f : String → Option Page) (dom : String)
    (dmax pmax : Nat) :
    ∀ (fuel : Nat) (tv : List (String × Nat)) (acc r : CrawlAcc),
      crawlLoopFuel f dom dmax pmax fuel tv acc = some r →
      crawlLoop f dom dmax pmax tv acc = r
  | 0, tv, acc, r, h => by simp [crawlLoopFuel] at h
  | fuel + 1, [], acc, r, h => by
    simp only [crawlLoopFuel, Option.some.injEq] at h
    rw [crawlLoop_nil, h]
  | fuel + 1, (url, depth) :: rest, acc, r, h => by
    rw [crawlLoop_cons]
    simp only [crawlLoopFuel] at h
    by_cases h1 : acc.visited.length < pmax
    · rw [if_pos h1]
      rw [if_pos h1] at h
      by_cases h2 : depth > dmax ∨ url ∈ acc.visited
      · rw [if_pos h2]
        rw [if_pos h2] at h
        exact crawlLoopFuel_sound f dom dmax pmax fuel rest acc r h
      · rw [if_neg h2]
        rw [if_neg h2] at h
        cases hf : f url with
        | none =>
          rw [hf] at h
          exact crawlLoopFuel_sound f dom dmax pmax fuel rest
            (failStep acc url depth) r h
        | some page =>
          rw [hf] at h
          exact crawlLoopFuel_sound f dom dmax pmax fuel
            (rest ++ pushLinks dom dmax (acc.visited ++ [url]) depth page.links)
            (succStep dom dmax acc url depth page) r h
    · rw [if_neg h1]
      rw [if_neg h1] at h
      exact Option.some.inj h

/-! ### Concrete crawls used as counterexamples and witnesses -/

/-- A seed page whose only content is the same dead link twice. -/
def dupLinkPage : Page :=
  ⟨"", "", [], [], ["http://a.com/x", "http://a.com/x"]⟩

/-- Fetch oracle for the duplicate-fetch scenario: the seed
`http://a.com` resolves to `dupLinkPage`; every other URL — in particular
`http://a.com/x` — fails. -/
def dupLinkOracle (u : String) : Option Page :=
  if u = "http://a.com" then some dupLinkPage else none

/-- The final accumulator of the duplicate-fetch crawl, computed via the
fuelled twin: the dead link `http://a.com/x` was handed to the fetcher
twice, and only the seed was ever marked visited. -/
theorem dupLink_run :
    analyzeAcc dupLinkOracle "http://a.com" 2 8 =
      ⟨["http://a.com"],
       [("http://a.com", 0), ("http://a.com/x", 1), ("http://a.com/x", 1)],
       [("http://a.com/x", 1), ("http://a.com/x", 1)],
       " ", [], [], [], []⟩ := by
  unfold analyzeAcc
  exact crawlLoopFuel_sound dupLinkOracle (netloc "http://a.com") 2 8 5
    [("http://a.com", 0)] initAcc _ (by decide)

/-- The final accumulator of a crawl in which every fetch fails: the seed
was attempted, and the visited set stayed empty. -/
theorem allfail_run :
    analyzeAcc (fun _ => none) "http://a.com" 2 8 =
      ⟨[], [("http://a.com", 0)], [], "", [], [], [], []⟩ := by
  unfold analyzeAcc
  exact crawlLoopFuel_sound (fun _ => none) (netloc "http://a.com") 2 8 5
    [("http://a.com", 0)] initAcc _ (by decide)

/-! ### An exception-aware refinement of the URL parsing and the crawl

`netloc` above totalizes `urllib.parse.urlparse(...).netloc`; but CPython's
`urlsplit` *raises* `ValueError("Invalid IPv6 URL")` when the authority
contains an unbalanced square bracket, and in the source this call sits
outside every `try`: at line 58 for the seed, and — through
`urljoin(url, a["href"])` at line 87 and `urlparse(link)` at line 110 —
for every href of a fetched page. The definitions here model that error
path; `none` / `Except.error` stands for the escaping `ValueError`. -/

/-- Modelled from `urllib.parse.urlsplit`: the authority of `url` contains
`[` without `]`, or `]` without `[` — the condition under which `urlsplit`
raises `ValueError("Invalid IPv6 URL")` instead of returning. -/
def bracketBroken (url : String) : Bool :=
  match removeScheme url.toList with
  | '/' :: '/' :: rest =>
    let auth := rest.takeWhile (fun c => c ≠ '/' ∧ c ≠ '?' ∧ c ≠ '#')
    (auth.contains '[' && !(auth.contains ']')) ||
      (auth.contains ']' && !(auth.contains '['))
  | _ => false

/-- `urlparse(url).netloc` with its `ValueError` path: `none` models the
raised `ValueError`, `some` the returned netloc (identical to `netloc`). -/
def netlocChecked (url : String) : Option String :=
  if bracketBroken url then none else some (netloc url)

theorem netlocChecked_eq_netloc {u d : String}
    (h : netlocChecked u = some d) : d = netloc u := by
  unfold netlocChecked at h
  by_cases hb : bracketBroken u = true
  · rw [if_pos hb] at h
    exact Option.noConfusion h
  · rw [if_neg hb] at h
    exact (Option.some.inj h).symm

/-- The crawl loop with the `ValueError` path of lines 87/110 made
explicit: fetching a page one of whose hrefs resolves to an
unbalanced-bracket URL raises out of the loop (in the source, `urljoin`
raises while producing the very link list the `Page` record carries, so a
fetched page with an unparsable link never finishes being processed). -/
def crawlLoopE (f : String → Option Page) (dom : String) (dmax pmax : Nat) :
    List (String × Nat) → CrawlAcc → Except String CrawlAcc
  | [], acc => Except.ok acc
  | (url, depth) :: rest, acc =>
    if _h : acc.visited.length < pmax then
      if depth > dmax ∨ url ∈ acc.visited then
        crawlLoopE f dom dmax pmax rest acc
      else
        match f url with
        | none => crawlLoopE f dom dmax pmax rest (failStep acc url depth)
        | some page =>
          if page.links.all (fun l => (netlocChecked l).isSome) then
            crawlLoopE f dom dmax pmax
              (rest ++ pushLinks dom dmax (acc.visited ++ [url]) depth page.links)
              (succStep dom dmax acc url depth page)
          else Except.error "Invalid IPv6 URL"
    else Except.ok acc
termination_by tv acc => (pmax - acc.visited.length, tv.length)
decreasing_by
  · apply Prod.Lex.right; simp [List.length_cons]
  · apply Prod.Lex.right; simp [List.length_cons]
  · apply Prod.Lex.left; simp [succStep]; omega

/-- `analyze_competitor_site` with the `ValueError` paths of lines 58, 87
and 110 made explicit: the seed's `urlparse` runs before the loop and
outside every `try`, so an unparsable seed raises past the function's
boundary before anything is fetched. -/
def analyze_competitor_siteE (f : String → Option Page) (start_url : String)
    (max_depth max_pages : Nat) : Except String CrawlReport :=
  match netlocChecked start_url with
  | none => Except.error "Invalid IPv6 URL"
  | some domain =>
    match crawlLoopE f domain max_depth max_pages [(start_url, 0)] initAcc with
    | Except.error e => Except.error e
    | Except.ok acc =>
      Except.ok
        { pages_scraped := acc.visited.length
          top_keywords := extract_keywords acc.all_text
          headings := acc.all_headings.take 15
          detected_colors := (dedupF acc.all_colors).take 8
          ctas := (dedupF acc.all_ctas).take 10
          product_links := (dedupF acc.all_product_links).take 10
          text_sample := pyTake 3000 acc.all_text }

theorem crawlLoopE_nil (f : String → Option Page) (dom : String)
    (dmax pmax : Nat) (acc : CrawlAcc) :
    crawlLoopE f dom dmax pmax [] acc = Except.ok acc := by
  rw [crawlLoopE]

theorem crawlLoopE_cons (f : String → Option Page) (dom : String)
    (dmax pmax : Nat) (url : String) (depth : Nat)
    (rest : List (String × Nat)) (acc : CrawlAcc) :
    crawlLoopE f dom dmax pmax ((url, depth) :: rest) acc =
      if acc.visited.length < pmax then
        if depth > dmax ∨ url ∈ acc.visited then
          crawlLoopE f dom dmax pmax rest acc
        else
          match f url with
          | none => crawlLoopE f dom dmax pmax rest (failStep acc url depth)
          | some page =>
            if page.links.all (fun l => (netlocChecked l).isSome) then
              crawlLoopE f dom dmax pmax
                (rest ++ pushLinks dom dmax (acc.visited ++ [url]) depth page.links)
                (succStep dom dmax acc url depth page)
            else Except.error "Invalid IPv6 URL"
      else Except.ok acc := by
  rw [crawlLoopE]
  rfl

/-- When every link of every fetchable page parses, the exception-aware
loop raises nothing and computes exactly what the total loop computes. -/
theorem crawlLoopE_eq_ok (f : String → Option Page) (dom : String)
    (dmax pmax : Nat)
    (hl : ∀ url page, f url = some page →
      page.links.all (fun l => (netlocChecked l).isSome) = true) :
    ∀ (tv : List (String × Nat)) (acc : CrawlAcc),
      crawlLoopE f dom dmax pmax tv acc =
        Except.ok (crawlLoop f dom dmax pmax tv acc) := by
  intro tv acc
  induction tv, acc using crawlLoopE.induct f dom dmax pmax with
  | case1 acc => rw [crawlLoopE_nil, crawlLoop_nil]
  | case2 url depth rest acc h1 h2 ih =>
    rw [crawlLoopE_cons, crawlLoop_cons, if_pos h1, if_pos h1, if_pos h2,
      if_pos h2]
    exact ih
  | case3 url depth rest acc h1 h2 hf ih =>
    rw [crawlLoopE_cons, crawlLoop_cons, if_pos h1, if_pos h1, if_neg h2,
      if_neg h2]
    simp only [hf]
    exact ih
  | case4 url depth rest acc h1 h2 page hf hok ih =>
    rw [crawlLoopE_cons, crawlLoop_cons, if_pos h1, if_pos h1, if_neg h2,
      if_neg h2]
    simp only [hf, if_pos hok]
    exact ih
  | case5 url depth rest acc h1 h2 page hf hbad =>
    exact absurd (hl url page hf) hbad
  | case6 url depth rest acc h1 =>
    rw [crawlLoopE_cons, crawlLoop_cons, if_neg h1, if_neg h1]

/-- When the seed parses and every fetchable page's links parse, the
exception-aware crawler raises nothing and returns exactly the report of
the total embedding. -/
theorem analyzeE_eq_ok (f : String → Option Page) (u : String)
    (dmax pmax : Nat) (hu : (netlocChecked u).isSome = true)
    (hl : ∀ url page, f url = some page →
      page.links.all (fun l => (netlocChecked l).isSome) = true) :
    analyze_competitor_siteE f u dmax pmax =
      Except.ok (analyze_competitor_site f u dmax pmax) := by
  obtain ⟨d, hd⟩ := Option.isSome_iff_exists.1 hu
  have hdn : d = netloc u := netlocChecked_eq_netloc hd
  subst hdn
  have hloop := crawlLoopE_eq_ok f (netloc u) dmax pmax hl [(u, 0)] initAcc
  simp only [analyze_competitor_siteE, hd, hloop]
  rfl

/-- A crawl in which every fetch fails returns the zero-result report,
whatever the seed string and the budgets. -/
theorem analyze_allfail_zero_report (u : String) (dmax pmax : Nat) :
    analyze_competitor_site (fun _ => none) u dmax pmax =
      ⟨0, [], [], [], [], [], ""⟩ := by
  obtain ⟨h1, h2, h3, h4, h5, h6⟩ := analyzeAcc_allfail u dmax pmax
  simp only [analyze_competitor_site, h1, h2, h3, h4, h5, h6]
  rfl

/-! ### The claims -/

/-- C1: the spec says a failed seed fetch yields a report-shaped **error**
value carrying an `error` field rather than a report with
`pages_scraped = 0`. The code does the opposite: evaluated at a crawl whose
seed fetch fails, `analyze_competitor_site` returns the ordinary report
shape — `pages_scraped = 0`, every field empty, and no error indication at
all (the returned dict of source lines 121–129, and hence the `CrawlReport`
record, has no `error` key; the `if "error" in structured_data` check of
the caller in `ai_service.py` can never fire). -/
theorem C1_seed_fetch_failure_plain_report :
    analyze_competitor_site (fun _ => none) "http://a.com" 2 8 =
      ⟨0, [], [], [], [], [], ""⟩ := by
  simp only [analyze_competitor_site, allfail_run]
  rfl

/-- C2 counterexample: a URL whose fetch fails is *not* added to the
visited set, contrary to the claim. In the all-failing crawl from
`http://a.com`, the seed is handed to the fetcher (it is the sole entry of
the attempt log) and its fetch fails, yet the final visited set does not
contain it. -/
theorem C2_cx_failed_fetch_not_visited :
    (analyzeAcc (fun _ => none) "http://a.com" 2 8).attempts =
      [("http://a.com", 0)] ∧
    "http://a.com" ∉ (analyzeAcc (fun _ => none) "http://a.com" 2 8).visited := by
  rw [allfail_run]
  exact ⟨rfl, by simp⟩

/-- C2 amended: a URL whose fetch fails is skipped entirely — the visited
set of a finished crawl consists exactly of the successfully fetched
attempts, in fetch order, so failed URLs contribute to no accumulator and
are *not* marked visited (and may hence be retried if re-enqueued). -/
theorem C2_amended_failed_fetch_skipped (f : String → Option Page)
    (u : String) (dmax pmax : Nat) :
    (analyzeAcc f u dmax pmax).visited =
      ((analyzeAcc f u dmax pmax).attempts.filter
        (fun a => (f a.1).isSome)).map Prod.fst :=
  analyzeAcc_visited_eq_successes f u dmax pmax

/-- C3 counterexample: a URL *can* be fetched twice. With a seed page
listing the dead link `http://a.com/x` twice, both frontier copies pass the
`url in visited` dequeue check (a failed fetch never enters the visited
set), so the fetcher receives that URL twice: the attempt log's URLs are
not duplicate-free. -/
theorem C3_cx_url_fetched_twice :
    ¬ (((analyzeAcc dupLinkOracle "http://a.com" 2 8).attempts.map
        Prod.fst).Nodup) := by
  rw [dupLink_run]
  decide

/-- C3 amended: no URL is ever *successfully* fetched more than once in a
crawl — the visited set is duplicate-free, and so is the sublist of
attempts whose fetch succeeded; only a URL whose fetches fail can be handed
to the fetcher repeatedly. -/
theorem C3_amended_no_url_succeeds_twice (f : String → Option Page)
    (u : String) (dmax pmax : Nat) :
    (analyzeAcc f u dmax pmax).visited.Nodup ∧
    (((analyzeAcc f u dmax pmax).attempts.filter
        (fun a => (f a.1).isSome)).map Prod.fst).Nodup := by
  refine ⟨analyzeAcc_visited_nodup f u dmax pmax, ?_⟩
  rw [← analyzeAcc_visited_eq_successes]
  exact analyzeAcc_visited_nodup f u dmax pmax

/-- C4: for every crawl, `pages_scraped` is at most `max_pages`, every URL
handed to the fetcher was dequeued at a depth of at most `max_depth` (the
re-check at source line 69), and every entry the loop pushes onto the
frontier has depth at most `max_depth` (so, the seed being at depth 0, the
frontier never holds an entry deeper than `max_depth`). -/
theorem C4_budgets_respected (f : String → Option Page) (u : String)
    (dmax pmax : Nat) :
    (analyze_competitor_site f u dmax pmax).pages_scraped ≤ pmax ∧
    (∀ a ∈ (analyzeAcc f u dmax pmax).attempts, a.2 ≤ dmax) ∧
    (∀ e ∈ (analyzeAcc f u dmax pmax).enqueued, e.2 ≤ dmax) := by
  refine ⟨?_, analyzeAcc_attempts_depth f u dmax pmax, ?_⟩
  · exact analyzeAcc_pages_le f u dmax pmax
  · intro e he
    exact (analyzeAcc_enqueued_ok f u dmax pmax e he).2.2

/-- C4 witness: the duplicate-link crawl instantiates the budget theorem,
and its report concretely scrapes one page out of the allowed eight. -/
theorem C4_budgets_respected_witness :
    (analyze_competitor_site dupLinkOracle "http://a.com" 2 8).pages_scraped = 1 ∧
    ((analyze_competitor_site dupLinkOracle "http://a.com" 2 8).pages_scraped ≤ 8 ∧
     (∀ a ∈ (analyzeAcc dupLinkOracle "http://a.com" 2 8).attempts, a.2 ≤ 2) ∧
     (∀ e ∈ (analyzeAcc dupLinkOracle "http://a.com" 2 8).enqueued, e.2 ≤ 2)) :=
  ⟨by simp [analyze_competitor_site, dupLink_run],
   C4_budgets_respected dupLinkOracle "http://a.com" 2 8⟩

/-- C5: whatever was scraped, the returned report obeys all field caps:
at most 8 colors, 10 CTAs, 10 product links, 20 keywords, 15 headings,
3000 characters of text sample. -/
theorem C5_report_caps (f : String → Option Page) (u : String)
    (dmax pmax : Nat) :
    (analyze_competitor_site f u dmax pmax).detected_colors.length ≤ 8 ∧
    (analyze_competitor_site f u dmax pmax).ctas.length ≤ 10 ∧
    (analyze_competitor_site f u dmax pmax).product_links.length ≤ 10 ∧
    (analyze_competitor_site f u dmax pmax).top_keywords.length ≤ 20 ∧
    (analyze_competitor_site f u dmax pmax).headings.length ≤ 15 ∧
    (analyze_competitor_site f u dmax pmax).text_sample.length ≤ 3000 := by
  refine ⟨?_, ?_, ?_, ?_, ?_, ?_⟩
  · simp only [analyze_competitor_site, List.length_take]
    exact min_le_left _ _
  · simp only [analyze_competitor_site, List.length_take]
    exact min_le_left _ _
  · simp only [analyze_competitor_site, List.length_take]
    exact min_le_left _ _
  · exact extract_keywords_length_le _
  · simp only [analyze_competitor_site, List.length_take]
    exact min_le_left _ _
  · simp only [analyze_competitor_site, pyTake, strMk_length, List.length_take]
    exact min_le_left _ _

/-- C6: every entry the crawl ever enqueues onto the frontier has a netloc
exactly equal (string equality, no subdomain generalization) to the seed
URL's netloc — a link whose host differs from the seed's is never enqueued,
whatever the oracle, depth budget and page budget. -/
theorem C6_same_host_only (f : String → Option Page) (u : String)
    (dmax pmax : Nat) :
    (analyzeAcc f u dmax pmax).enqueued.all
      (fun e => decide (netloc e.1 = netloc u)) = true := by
  rw [List.all_eq_true]
  intro e he
  exact decide_eq_true (analyzeAcc_enqueued_ok f u dmax pmax e he).1

/-- C7: every entry the crawl ever enqueues onto the frontier is free of
the exclusion vocabulary — a link whose lowercased form contains
`login`, `signup`, `privacy`, `terms`, `blog` or `careers` is never
enqueued, even same-host and within depth. -/
theorem C7_excluded_terms_never_enqueued (f : String → Option Page)
    (u : String) (dmax pmax : Nat) :
    (analyzeAcc f u dmax pmax).enqueued.all
      (fun e => !(excludedLink e.1)) = true := by
  rw [List.all_eq_true]
  intro e he
  simp [(analyzeAcc_enqueued_ok f u dmax pmax e he).2.1]

/-- C8: `extract_keywords` returns at most 20 distinct words; each is a
≥4-letter purely alphabetic token of the lowercased input that is not a
stop word (the stop-word list containing in particular "privacy",
"contact" and "login"); and the output is ranked by strictly descending
frequency over the filtered token sequence, ties broken by first-occurrence
order. Words of the filtered sequence are only omitted when the 20-slot
budget is full. -/
theorem C8_extract_keywords_spec (text : String) :
    (extract_keywords text).length ≤ 20 ∧
    (extract_keywords text).Nodup ∧
    ("privacy" ∈ stopwords ∧ "contact" ∈ stopwords ∧ "login" ∈ stopwords) ∧
    (∀ w ∈ extract_keywords text,
      w ∈ pyTokens (pyLower text) ∧ 4 ≤ w.length ∧
        w.toList.all Char.isAlpha = true ∧ w ∉ stopwords) ∧
    (extract_keywords text).Pairwise (fun a b =>
      occCount b (filteredTokens text) < occCount a (filteredTokens text) ∨
      (occCount a (filteredTokens text) = occCount b (filteredTokens text) ∧
        firstIdx a (filteredTokens text) < firstIdx b (filteredTokens text))) ∧
    (∀ w ∈ filteredTokens text, w ∉ extract_keywords text →
      (extract_keywords text).length = 20) := by
  refine ⟨extract_keywords_length_le text, extract_keywords_nodup text,
    by decide, ?_, extract_keywords_pairwise text, ?_⟩
  · intro w hw
    exact mem_filteredTokens (extract_keywords_mem hw)
  · intro w hw hnot
    exact extract_keywords_complete hw hnot

/-- C8 witness: on a concrete text the extraction computes the expected
ranking ("beta" twice beats the singletons, which keep first-occurrence
order), and the characterization theorem instantiates there. -/
theorem C8_extract_keywords_spec_witness :
    extract_keywords "Alpha beta beta gamma with tiny" = ["beta", "alpha", "gamma", "tiny"] ∧
    ((extract_keywords "Alpha beta beta gamma with tiny").length ≤ 20 ∧
     (extract_keywords "Alpha beta beta gamma with tiny").Nodup ∧
     ("privacy" ∈ stopwords ∧ "contact" ∈ stopwords ∧ "login" ∈ stopwords) ∧
     (∀ w ∈ extract_keywords "Alpha beta beta gamma with tiny",
       w ∈ pyTokens (pyLower "Alpha beta beta gamma with tiny") ∧ 4 ≤ w.length ∧
         w.toList.all Char.isAlpha = true ∧ w ∉ stopwords) ∧
     (extract_keywords "Alpha beta beta gamma with tiny").Pairwise (fun a b =>
       occCount b (filteredTokens "Alpha beta beta gamma with tiny") <
         occCount a (filteredTokens "Alpha beta beta gamma with tiny") ∨
       (occCount a (filteredTokens "Alpha beta beta gamma with tiny") =
         occCount b (filteredTokens "Alpha beta beta gamma with tiny") ∧
         firstIdx a (filteredTokens "Alpha beta beta gamma with tiny") <
           firstIdx b (filteredTokens "Alpha beta beta gamma with tiny"))) ∧
     (∀ w ∈ filteredTokens "Alpha beta beta gamma with tiny",
       w ∉ extract_keywords "Alpha beta beta gamma with tiny" →
       (extract_keywords "Alpha beta beta gamma with tiny").length = 20)) :=
  ⟨by decide, C8_extract_keywords_spec "Alpha beta beta gamma with tiny"⟩

/-- C9 counterexample: the claim "for every input (including a malformed
seed URL) the crawler returns a report and never raises" is false of the
program. With seed `"http://["`, line 58's `urlparse(start_url)` — outside
every `try` — raises `ValueError("Invalid IPv6 URL")` before anything is
fetched: in the exception-aware embedding the crawler yields the escaping
error, not a report. -/
theorem C9_cx_malformed_seed_raises :
    analyze_competitor_siteE (fun _ => none) "http://[" 2 8 =
      Except.error "Invalid IPv6 URL" := by
  rfl

/-- C9 amended: provided the seed URL parses (no unbalanced bracket in its
authority) and every fetched page's resolved links parse too, the crawler
raises nothing and returns a report — every fetch error is caught locally
by the bare `except`, and a crawl in which no fetch succeeds (unreachable
or scheme-malformed seeds included, since `requests.get` failures are
swallowed) still returns the zero-result report rather than raising. -/
theorem C9_no_raise_when_urls_parse (f : String → Option Page) (u : String)
    (dmax pmax : Nat) (hu : (netlocChecked u).isSome = true)
    (hl : ∀ url page, f url = some page →
      page.links.all (fun l => (netlocChecked l).isSome) = true) :
    analyze_competitor_siteE f u dmax pmax =
      Except.ok (analyze_competitor_site f u dmax pmax) ∧
    analyze_competitor_siteE (fun _ => none) u dmax pmax =
      Except.ok ⟨0, [], [], [], [], [], ""⟩ := by
  refine ⟨analyzeE_eq_ok f u dmax pmax hu hl, ?_⟩
  rw [analyzeE_eq_ok (fun _ => none) u dmax pmax hu
      (fun url page h => Option.noConfusion h),
    analyze_allfail_zero_report u dmax pmax]

/-- C9 witness: the duplicate-link crawl satisfies both provisos (its seed
and both copies of its one discovered link parse), so the exception-aware
crawler completes without raising and agrees with the total embedding. -/
theorem C9_no_raise_when_urls_parse_witness :
    (netlocChecked "http://a.com").isSome = true ∧
    analyze_competitor_siteE dupLinkOracle "http://a.com" 2 8 =
      Except.ok (analyze_competitor_site dupLinkOracle "http://a.com" 2 8) :=
  ⟨by decide,
   (C9_no_raise_when_urls_parse dupLinkOracle "http://a.com" 2 8 (by decide)
     (by
       intro url page h
       unfold dupLinkOracle at h
       by_cases hc : url = "http://a.com"
       · rw [if_pos hc] at h
         cases Option.some.inj h
         decide
       · rw [if_neg hc] at h
         exact Option.noConfusion h)).1⟩

/-- C10: the host filter and the exclusion-term filter guard only the
enqueueing of discovered links, never the seed: whenever the page budget is
positive, the very first URL handed to the fetcher is the seed itself at
depth 0, whatever its host or wording. -/
theorem C10_seed_never_filtered (f : String → Option Page) (u : String)
    (dmax pmax : Nat) (hp : 1 ≤ pmax) :
    (analyzeAcc f u dmax pmax).attempts.head? = some (u, 0) :=
  analyzeAcc_first_attempt f u dmax pmax hp

/-- C10 witness: a seed URL containing the exclusion term "login" is still
fetched first. -/
theorem C10_seed_never_filtered_witness :
    excludedLink "https://site.example/login" = true ∧
    (analyzeAcc (fun _ => none) "https://site.example/login" 2 8).attempts.head? =
      some ("https://site.example/login", 0) :=
  ⟨by decide,
   C10_seed_never_filtered (fun _ => none) "https://site.example/login" 2 8
     (by decide)⟩

end CompetitorAnalyzer
